import Mathlib

/-
Verification of the MTH9815 bond trading system (C++ sources) against its
natural-language specification.  The C++ keyed stores (std::map,
std::unordered_map) are embedded as association lists; C++ `long` is Int;
prices are embedded as rationals: every price the program manipulates is a
dyadic rational with denominator dividing 256 and magnitude far below 2^45,
a domain on which IEEE double arithmetic (the sums, differences and
comparisons appearing in the sources) is exact, so the rational embedding
is faithful.
-/

namespace TradingSystem

deriving instance DecidableEq for Except

/-! ## Association-list store primitives

`alookup` models `map::find`, `ainsert` models `m[k] = v` (assign the first
occurrence, or append a fresh entry), and `bump` models `m[k] += q`
(value-initialise to 0 on a miss, then add).  Iteration order of the C++
`unordered_map` is unspecified; the properties proved below are
order-independent, so fixing first-insertion order is faithful. -/

def alookup [DecidableEq α] : List (α × β) → α → Option β
  | [], _ => none
  | (k, v) :: rest, key => if k = key then some v else alookup rest key

def ainsert [DecidableEq α] : List (α × β) → α → β → List (α × β)
  | [], key, v => [(key, v)]
  | (k, w) :: rest, key, v =>
      if k = key then (k, v) :: rest else (k, w) :: ainsert rest key v

def bump [DecidableEq α] : List (α × Int) → α → Int → List (α × Int)
  | [], key, q => [(key, q)]
  | (k, w) :: rest, key, q =>
      if k = key then (k, w + q) :: rest else (k, w) :: bump rest key q

/-- Value stored at a key, defaulting to 0 (`operator[]` read of absent key). -/
def valAt [DecidableEq α] (m : List (α × Int)) (key : α) : Int :=
  (alookup m key).getD 0

/-- Sum of all stored values (`std::accumulate` over the map). -/
def sumVals (m : List (α × Int)) : Int :=
  (m.map (·.2)).sum

def keysOf (m : List (α × β)) : List α :=
  m.map (·.1)

theorem alookup_ainsert_self [DecidableEq α] (m : List (α × β)) (k : α) (v : β) :
    alookup (ainsert m k v) k = some v := by
  induction m with
  | nil => simp [ainsert, alookup]
  | cons hd tl ih =>
      obtain ⟨k', w⟩ := hd
      by_cases h : k' = k <;> simp [ainsert, alookup, h, ih]

theorem alookup_ainsert_ne [DecidableEq α] (m : List (α × β)) (k k' : α) (v : β)
    (h : k ≠ k') : alookup (ainsert m k v) k' = alookup m k' := by
  induction m with
  | nil => simp [ainsert, alookup, h]
  | cons hd tl ih =>
      obtain ⟨k0, w⟩ := hd
      by_cases h0 : k0 = k
      · subst h0; simp [ainsert, alookup, h]
      · simp [ainsert, alookup, h0, ih]

theorem valAt_bump [DecidableEq α] (m : List (α × Int)) (k k' : α) (q : Int) :
    valAt (bump m k q) k' = valAt m k' + (if k = k' then q else 0) := by
  induction m with
  | nil =>
      by_cases h : k = k' <;> simp [bump, valAt, alookup, h]
  | cons hd tl ih =>
      obtain ⟨k0, w⟩ := hd
      by_cases h0 : k0 = k
      · subst h0
        by_cases h1 : k0 = k'
        · subst h1
          simp [bump, valAt, alookup]
        · simp [bump, valAt, alookup, h1]
      · by_cases h1 : k0 = k'
        · subst h1
          have hne : ¬ k = k0 := fun h => h0 h.symm
          simp [bump, valAt, alookup, h0, hne]
        · simp only [valAt] at ih
          simp [bump, valAt, alookup, h0, h1, ih]

theorem sumVals_bump [DecidableEq α] (m : List (α × Int)) (k : α) (q : Int) :
    sumVals (bump m k q) = sumVals m + q := by
  induction m with
  | nil => simp [bump, sumVals]
  | cons hd tl ih =>
      obtain ⟨k0, w⟩ := hd
      by_cases h0 : k0 = k
      · subst h0
        simp [bump, sumVals]
        ring
      · simp only [bump, if_neg h0, sumVals, List.map_cons, List.sum_cons]
        simp only [sumVals] at ih
        omega

theorem keysOf_bump [DecidableEq α] (m : List (α × Int)) (k : α) (q : Int) :
    keysOf (bump m k q) = if k ∈ keysOf m then keysOf m else keysOf m ++ [k] := by
  induction m with
  | nil => simp [bump, keysOf]
  | cons hd tl ih =>
      obtain ⟨k0, w⟩ := hd
      by_cases h0 : k0 = k
      · subst h0; simp [bump, keysOf]
      · have hne : ¬ k = k0 := fun h => h0 h.symm
        simp only [bump, if_neg h0, keysOf, List.map_cons]
        simp only [keysOf] at ih
        rw [ih]
        by_cases hmem : k ∈ List.map (fun x => x.1) tl
        · simp [List.mem_cons, hmem, hne]
        · simp [List.mem_cons, hmem, hne]

theorem nodup_keysOf_bump [DecidableEq α] (m : List (α × Int)) (k : α) (q : Int)
    (h : (keysOf m).Nodup) : (keysOf (bump m k q)).Nodup := by
  rw [keysOf_bump]
  by_cases hmem : k ∈ keysOf m
  · simpa [hmem]
  · simp only [hmem, if_false]
    simpa [List.nodup_append] using ⟨h, hmem⟩

/-! ## Core domain types

`soa.hpp` and `products.hpp` are not among the provided sources; Bond is
modelled from the spec: "Product (Bond): productId (CUSIP); ticker, coupon,
maturity; immutable" together with the constructor calls visible in
`ProductFactory.hpp`.  The maturity date is kept as its literal string. -/

inductive Side | BUY | SELL
  deriving DecidableEq, Repr

inductive PricingSide | BID | OFFER
  deriving DecidableEq, Repr

inductive OrderType | FOK | IOC | MARKET | LIMIT | STOP
  deriving DecidableEq, Repr

inductive Market | BROKERTEC | ESPEED | CME
  deriving DecidableEq, Repr

/-- Modelled from the spec: the Bond product class of the missing
`products.hpp`, with the fields used by `ProductFactory.hpp`. -/
structure Bond where
  productId : String
  ticker : String
  coupon : ℚ
  maturity : String
  deriving DecidableEq, Repr

/-- Trade<T> from tradebookingservice.hpp. -/
structure Trade where
  product : Bond
  tradeId : String
  price : ℚ
  book : String
  quantity : Int
  side : Side
  deriving DecidableEq, Repr

/-! ## PositionService (positionservice.hpp) -/

/-- Position<T>: a product plus `map<string, long> bookPositionData`. -/
structure Position where
  product : Bond
  bookPositionData : List (String × Int)
  deriving DecidableEq, Repr

/-- Position<T>::AddPosition: `bookPositionData[book] += position`. -/
def Position.addPosition (pos : Position) (book : String) (q : Int) : Position :=
  { pos with bookPositionData := bump pos.bookPositionData book q }

/-- Position<T>::GetPosition: the book's slot, 0 if absent. -/
def Position.getPosition (pos : Position) (book : String) : Int :=
  valAt pos.bookPositionData book

/-- Position<T>::GetAggregatePosition: `accumulate` of all book slots. -/
def Position.getAggregatePosition (pos : Position) : Int :=
  sumVals pos.bookPositionData

/-- The signed quantity of a trade:
`(trade.GetSide() == BUY ? trade.GetQuantity() : -trade.GetQuantity())`. -/
def signedQty (t : Trade) : Int :=
  if t.side = Side.BUY then t.quantity else -t.quantity

/-- The PositionService keyed store `map<string, Position<T>> positionData`. -/
abbrev PosStore := List (String × Position)

/-- PositionService<T>::AddTrade: `try_emplace` a Position for the product,
add the signed quantity to the trade's book slot, and return the updated
store together with the Position handed to `ProcessAdd` on every listener. -/
def posAddTrade (ps : PosStore) (t : Trade) : PosStore × Position :=
  let pos0 := (alookup ps t.product.productId).getD
    { product := t.product, bookPositionData := [] }
  let pos1 := pos0.addPosition t.book (signedQty t)
  (ainsert ps t.product.productId pos1, pos1)

/-- Folding PositionService<T>::AddTrade over a list of trades
(each trade fully processed before the next, per the synchronous model). -/
def posProcess (ts : List Trade) : PosStore :=
  ts.foldl (fun ps t => (posAddTrade ps t).1) []

/-- Aggregate position recorded for a product (0 when no entry exists). -/
def aggOf (ps : PosStore) (p : String) : Int :=
  match alookup ps p with
  | some pos => pos.getAggregatePosition
  | none => 0

/-- Per-book position recorded for a product (0 when no entry exists). -/
def bookOf (ps : PosStore) (p : String) (b : String) : Int :=
  match alookup ps p with
  | some pos => pos.getPosition b
  | none => 0

theorem aggOf_posAddTrade (ps : PosStore) (t : Trade) (p : String) :
    aggOf (posAddTrade ps t).1 p =
      aggOf ps p + (if t.product.productId = p then signedQty t else 0) := by
  by_cases h : t.product.productId = p
  · subst h
    simp only [aggOf, posAddTrade, alookup_ainsert_self, if_pos rfl]
    cases hl : alookup ps t.product.productId with
    | none =>
        simp [hl, Position.addPosition, Position.getAggregatePosition, bump, sumVals]
    | some pos =>
        simp [hl, Position.addPosition, Position.getAggregatePosition, sumVals_bump]
  · simp only [aggOf, posAddTrade, if_neg h]
    rw [alookup_ainsert_ne _ _ _ _ h]
    omega

theorem bookOf_posAddTrade (ps : PosStore) (t : Trade) (p b : String) :
    bookOf (posAddTrade ps t).1 p b =
      bookOf ps p b +
        (if t.product.productId = p ∧ t.book = b then signedQty t else 0) := by
  by_cases h : t.product.productId = p
  · subst h
    simp only [bookOf, posAddTrade, alookup_ainsert_self, true_and]
    cases hl : alookup ps t.product.productId with
    | none =>
        by_cases hb : t.book = b <;>
          simp [hl, Position.addPosition, Position.getPosition, valAt, bump, alookup, hb]
    | some pos =>
        simp [hl, Position.addPosition, Position.getPosition, valAt_bump]
  · have hne : ¬ (t.product.productId = p ∧ t.book = b) := fun hc => h hc.1
    simp only [bookOf, posAddTrade, if_neg hne]
    rw [alookup_ainsert_ne _ _ _ _ h]
    omega

/-- Sum of signed quantities of the trades of product `p`. -/
def signedSumFor (p : String) (ts : List Trade) : Int :=
  ((ts.filter (fun t => t.product.productId = p)).map signedQty).sum

/-- Sum of signed quantities of the trades of product `p` booked in book `b`. -/
def signedSumForBook (p b : String) (ts : List Trade) : Int :=
  ((ts.filter (fun t => t.product.productId = p ∧ t.book = b)).map signedQty).sum

theorem aggOf_foldl (ts : List Trade) (ps : PosStore) (p : String) :
    aggOf (ts.foldl (fun ps t => (posAddTrade ps t).1) ps) p =
      aggOf ps p + signedSumFor p ts := by
  induction ts generalizing ps with
  | nil => simp [signedSumFor]
  | cons t ts ih =>
      simp only [List.foldl_cons, ih, aggOf_posAddTrade]
      by_cases h : t.product.productId = p <;>
        simp [signedSumFor, h] <;> ring

theorem bookOf_foldl (ts : List Trade) (ps : PosStore) (p b : String) :
    bookOf (ts.foldl (fun ps t => (posAddTrade ps t).1) ps) p b =
      bookOf ps p b + signedSumForBook p b ts := by
  induction ts generalizing ps with
  | nil => simp [signedSumForBook]
  | cons t ts ih =>
      simp only [List.foldl_cons, ih, bookOf_posAddTrade]
      by_cases h : t.product.productId = p ∧ t.book = b <;>
        simp [signedSumForBook, h] <;> ring

/-- C2: after PositionService processes trades T1..Tn through AddTrade, the
aggregate position of every product equals the sum of the signed quantities
(+qty for BUY, -qty for SELL) of that product's trades, and every book slot
holds the sum of the signed quantities of that product's trades booked in
that book. -/
theorem claim2_position_linearity (ts : List Trade) (p b : String) :
    aggOf (posProcess ts) p = signedSumFor p ts ∧
    bookOf (posProcess ts) p b = signedSumForBook p b ts := by
  refine ⟨?_, ?_⟩
  · simpa [posProcess, aggOf, alookup] using aggOf_foldl ts [] p
  · simpa [posProcess, bookOf, alookup] using bookOf_foldl ts [] p b

/-! ## RiskService (riskservice.hpp)

`BondAnalytics::QueryPV01` computes a per-unit PV01 with double-precision
cash-flow discounting; the per-unit value is irrelevant to every claim about
quantities, so it enters the embedding as an abstract parameter
`pv01Of : String → ℚ` (total on the product table's seven CUSIPs, which are
the only products a Trade can carry). -/

/-- PV01<T>: product, per-unit pv01 value, and accumulated quantity. -/
structure PV01 where
  product : Bond
  pv01 : ℚ
  quantity : Int
  deriving DecidableEq, Repr

/-- The RiskService keyed store `map<string, PV01<T>> pv01Data`. -/
abbrev RiskStore := List (String × PV01)

/-- RiskService<T>::AddPosition: read the position's aggregate quantity,
build a fresh PV01 carrying it; if an entry exists for the product, add the
quantity to the stored entry (`UpdateQuantity`), otherwise insert the fresh
PV01.  Listeners are notified with the fresh (non-accumulated) PV01, which
is returned alongside the new store. -/
def riskAddPosition (pv01Of : String → ℚ) (rs : RiskStore) (pos : Position) :
    RiskStore × PV01 :=
  let productId := pos.product.productId
  let quantity := pos.getAggregatePosition
  let pv : PV01 := { product := pos.product, pv01 := pv01Of productId, quantity }
  match alookup rs productId with
  | some old =>
      (ainsert rs productId { old with quantity := old.quantity + quantity }, pv)
  | none => (rs ++ [(productId, pv)], pv)

/-- One trade through the listener chain
TradeBooking → PositionService::AddTrade → RiskService::AddPosition. -/
def processTrade (pv01Of : String → ℚ) (st : PosStore × RiskStore) (t : Trade) :
    PosStore × RiskStore :=
  ((posAddTrade st.1 t).1,
   (riskAddPosition pv01Of st.2 (posAddTrade st.1 t).2).1)

/-- All trades processed in order, starting from empty stores. -/
def processTrades (pv01Of : String → ℚ) (ts : List Trade) : PosStore × RiskStore :=
  ts.foldl (processTrade pv01Of) ([], [])

/-- `totalQty` stored for a product, `none` when the product has no entry. -/
def riskQtyOf (rs : RiskStore) (p : String) : Option Int :=
  (alookup rs p).map (·.quantity)

/-- A position store is well-keyed when every entry's product id is its key;
every store reachable from the empty one satisfies this. -/
def WellKeyed (ps : PosStore) : Prop :=
  ∀ k pos, alookup ps k = some pos → pos.product.productId = k

theorem wellKeyed_nil : WellKeyed [] := by
  intro k pos h
  simp [alookup] at h

theorem alookup_ainsert_cases [DecidableEq α] (m : List (α × β)) (k k' : α)
    (v w : β) (h : alookup (ainsert m k v) k' = some w) :
    (k = k' ∧ w = v) ∨ (¬ k = k' ∧ alookup m k' = some w) := by
  by_cases he : k = k'
  · subst he
    rw [alookup_ainsert_self] at h
    exact Or.inl ⟨rfl, (Option.some_inj.mp h).symm⟩
  · rw [alookup_ainsert_ne _ _ _ _ he] at h
    exact Or.inr ⟨he, h⟩

theorem wellKeyed_posAddTrade (ps : PosStore) (t : Trade) (h : WellKeyed ps) :
    WellKeyed (posAddTrade ps t).1 := by
  intro k pos hl
  simp only [posAddTrade] at hl
  rcases alookup_ainsert_cases _ _ _ _ _ hl with ⟨hk, hv⟩ | ⟨hk, hv⟩
  · subst hk
    subst hv
    cases h0 : alookup ps t.product.productId with
    | none => simp [h0, Position.addPosition]
    | some pos0 =>
        have := h _ _ h0
        simp [h0, Position.addPosition, this]
  · exact h _ _ hv

theorem posAddTrade_snd_id (ps : PosStore) (t : Trade) (h : WellKeyed ps) :
    (posAddTrade ps t).2.product.productId = t.product.productId := by
  simp only [posAddTrade]
  cases h0 : alookup ps t.product.productId with
  | none => simp [h0, Position.addPosition]
  | some pos0 =>
      have := h _ _ h0
      simp [h0, Position.addPosition, this]

theorem posAddTrade_snd_agg (ps : PosStore) (t : Trade) :
    (posAddTrade ps t).2.getAggregatePosition =
      aggOf ps t.product.productId + signedQty t := by
  simp only [posAddTrade, aggOf]
  cases h0 : alookup ps t.product.productId with
  | none =>
      simp [h0, Position.addPosition, Position.getAggregatePosition, bump, sumVals]
  | some pos0 =>
      simp [h0, Position.addPosition, Position.getAggregatePosition, sumVals_bump]

theorem alookup_append_single_self [DecidableEq α] (m : List (α × β)) (k : α)
    (v : β) (h : alookup m k = none) : alookup (m ++ [(k, v)]) k = some v := by
  induction m with
  | nil => simp [alookup]
  | cons hd tl ih =>
      obtain ⟨k0, w⟩ := hd
      by_cases hk : k0 = k
      · subst hk; simp [alookup] at h
      · simp only [alookup, hk, if_false, List.cons_append] at h ⊢
        exact ih h

theorem alookup_append_single_ne [DecidableEq α] (m : List (α × β)) (k k' : α)
    (v : β) (h : ¬ k = k') : alookup (m ++ [(k, v)]) k' = alookup m k' := by
  induction m with
  | nil => simp [alookup, h]
  | cons hd tl ih =>
      obtain ⟨k0, w⟩ := hd
      by_cases hk : k0 = k' <;> simp [alookup, hk, List.cons_append, ih]

theorem riskQty_processTrade (pv01Of : String → ℚ) (ps : PosStore)
    (rs : RiskStore) (t : Trade) (p : String) (h : WellKeyed ps) :
    riskQtyOf (processTrade pv01Of (ps, rs) t).2 p =
      if t.product.productId = p then
        some ((riskQtyOf rs p).getD 0 + (aggOf ps p + signedQty t))
      else riskQtyOf rs p := by
  have hid := posAddTrade_snd_id ps t h
  have hagg := posAddTrade_snd_agg ps t
  simp only [processTrade, riskAddPosition, hid]
  by_cases hp : t.product.productId = p
  · subst hp
    cases h0 : alookup rs t.product.productId with
    | none =>
        simp only [h0, riskQtyOf]
        rw [alookup_append_single_self _ _ _ h0]
        simp [hagg]
    | some old =>
        simp [h0, riskQtyOf, alookup_ainsert_self, hagg]
  · cases h0 : alookup rs t.product.productId with
    | none =>
        simp only [h0, riskQtyOf, if_neg hp]
        rw [alookup_append_single_ne _ _ _ _ hp]
    | some old =>
        simp only [h0, riskQtyOf, if_neg hp]
        rw [alookup_ainsert_ne _ _ _ _ hp]

/-- The totalQty the risk store records for product `p`, written as the
spec-level running accumulation: each trade of `p` advances the aggregate by
its signed quantity and adds the new aggregate to the stored total. -/
def runRisk (p : String) : Int → Option Int → List Trade → Option Int
  | _, ro, [] => ro
  | agg, ro, t :: ts =>
      if t.product.productId = p then
        runRisk p (agg + signedQty t) (some (ro.getD 0 + (agg + signedQty t))) ts
      else runRisk p agg ro ts

theorem riskQty_foldl (pv01Of : String → ℚ) (ts : List Trade) :
    ∀ (ps : PosStore) (rs : RiskStore) (p : String), WellKeyed ps →
      riskQtyOf ((ts.foldl (processTrade pv01Of) (ps, rs)).2) p =
        runRisk p (aggOf ps p) (riskQtyOf rs p) ts := by
  induction ts with
  | nil =>
      intro ps rs p h
      simp [runRisk]
  | cons t ts ih =>
      intro ps rs p h
      have hstep := riskQty_processTrade pv01Of ps rs t p h
      have hwk := wellKeyed_posAddTrade ps t h
      simp only [List.foldl_cons]
      rw [show processTrade pv01Of (ps, rs) t =
            ((posAddTrade ps t).1,
             (riskAddPosition pv01Of rs (posAddTrade ps t).2).1) from rfl]
      rw [ih _ _ p hwk]
      simp only [processTrade] at hstep
      rw [hstep, aggOf_posAddTrade]
      by_cases hp : t.product.productId = p
      · simp [runRisk, hp]
      · simp [runRisk, hp]

/-- C1 (amended): RiskService::AddPosition adds the aggregate position to a
pre-existing entry's totalQty, so after trades T1..Tn the stored
`PV01[p].totalQty` is the running sum of the post-trade aggregate positions
over p's trades (`runRisk`), not the final aggregate; the two coincide only
while p has seen at most one trade. -/
theorem claim1_amended_pv01_accumulation (pv01Of : String → ℚ) (ts : List Trade)
    (p : String) :
    riskQtyOf (processTrades pv01Of ts).2 p = runRisk p 0 none ts := by
  have := riskQty_foldl pv01Of ts [] [] p wellKeyed_nil
  simpa [processTrades, aggOf, riskQtyOf, alookup] using this

/-- C1 witness: on a single BUY of 1,000,000, the stored totalQty equals the
aggregate position, instantiating the amended claim on a concrete input. -/
theorem claim1_amended_pv01_accumulation_witness :
    riskQtyOf (processTrades (fun _ => (265:ℚ)/100)
      [{ product := { productId := "91282CAV3", ticker := "US2Y",
                      coupon := 45/1000, maturity := "2026/11/30" },
         tradeId := "T1", price := 99, book := "TRSY1",
         quantity := 1000000, side := Side.BUY }]).2 "91282CAV3"
      = some 1000000 := by
  rw [claim1_amended_pv01_accumulation]
  decide

/-- Two BUY trades of 1,000,000 each of the same product, same book. -/
def claim1CexTrades : List Trade :=
  [{ product := { productId := "91282CAV3", ticker := "US2Y",
                  coupon := 45/1000, maturity := "2026/11/30" },
     tradeId := "T1", price := 99, book := "TRSY1",
     quantity := 1000000, side := Side.BUY },
   { product := { productId := "91282CAV3", ticker := "US2Y",
                  coupon := 45/1000, maturity := "2026/11/30" },
     tradeId := "T2", price := 99, book := "TRSY1",
     quantity := 1000000, side := Side.BUY }]

/-- C1 counterexample: two BUY trades of 1,000,000 in the same product leave
an aggregate position of 2,000,000 but a stored PV01 totalQty of 3,000,000
(1,000,000 after the first trade plus the new aggregate 2,000,000 after the
second), refuting `PV01[p].totalQty == Σ positions[p]` after all trades. -/
theorem claim1_cex_pv01_not_aggregate :
    riskQtyOf (processTrades (fun _ => (265:ℚ)/100) claim1CexTrades).2 "91282CAV3"
        = some 3000000 ∧
    aggOf (processTrades (fun _ => (265:ℚ)/100) claim1CexTrades).1 "91282CAV3"
        = 2000000 ∧
    riskQtyOf (processTrades (fun _ => (265:ℚ)/100) claim1CexTrades).2 "91282CAV3"
      ≠ some (aggOf (processTrades (fun _ => (265:ℚ)/100) claim1CexTrades).1
          "91282CAV3") := by
  refine ⟨by decide, by decide, by decide⟩

/-! ## TradeBookingService (tradebookingservice.hpp) -/

/-- The TradeBookingService keyed store `map<string, Trade<T>> tradeData`. -/
abbrev TradeStore := List (String × Trade)

/-- TradeBookingService<T>::OnMessage: assign-or-insert the trade under its
tradeId, then hand the trade to `ProcessAdd` on every listener (the returned
list is the sequence of listener notifications). -/
def tbOnMessage (store : TradeStore) (t : Trade) : TradeStore × List Trade :=
  (ainsert store t.tradeId t, [t])

/-- TradeBookingService<T>::BookTrade: hand the trade to `ProcessAdd` on
every listener; the store is not touched. -/
def tbBookTrade (store : TradeStore) (t : Trade) : TradeStore × List Trade :=
  (store, [t])

/-- TradeBookingService<T>::GetData: stored trade, or a "Key not found"
runtime error. -/
def tbGetData (store : TradeStore) (key : String) : Except String Trade :=
  match alookup store key with
  | some v => .ok v
  | none => .error "Key not found"

/-- C10: BookTrade only notifies listeners with the trade and leaves the
trade store unchanged, so a GetData on the booked trade's id still fails
afterwards unless the key was already stored; OnMessage is the entry point
that inserts into the store. -/
theorem claim10_bookTrade_frame (store : TradeStore) (t : Trade) :
    (tbBookTrade store t).1 = store ∧
    (tbBookTrade store t).2 = [t] ∧
    (alookup store t.tradeId = none →
      tbGetData (tbBookTrade store t).1 t.tradeId = .error "Key not found") ∧
    (∀ v, alookup store t.tradeId = some v →
      tbGetData (tbBookTrade store t).1 t.tradeId = .ok v) ∧
    alookup (tbOnMessage store t).1 t.tradeId = some t := by
  refine ⟨rfl, rfl, ?_, ?_, ?_⟩
  · intro h
    simp [tbBookTrade, tbGetData, h]
  · intro v h
    simp [tbBookTrade, tbGetData, h]
  · simp [tbOnMessage, alookup_ainsert_self]

/-- A trade synthesised from an execution order, as booked via BookTrade. -/
def claim10Trade : Trade :=
  { product := { productId := "91282CAV3", ticker := "US2Y",
                 coupon := 45/1000, maturity := "2026/11/30" },
    tradeId := "ALGOX", price := 100, book := "TRSY1",
    quantity := 3000000, side := Side.BUY }

/-- C10 witness: booking a concrete trade into an empty store leaves the
store empty and the lookup failing, while OnMessage stores it. -/
theorem claim10_bookTrade_frame_witness :
    (tbBookTrade [] claim10Trade).1 = [] ∧
    tbGetData (tbBookTrade [] claim10Trade).1 "ALGOX" = .error "Key not found" ∧
    alookup (tbOnMessage [] claim10Trade).1 "ALGOX" = some claim10Trade := by
  have h := claim10_bookTrade_frame [] claim10Trade
  exact ⟨h.1, h.2.2.1 (by decide), by
    have := h.2.2.2.2
    simpa using this⟩

/-! ## Product table (ProductFactory.hpp) and GetData (C5) -/

/-- The CUSIP → Bond constructor table of ProductFactory.hpp. -/
def bondTable : List (String × Bond) :=
  [("91282CAV3", { productId := "91282CAV3", ticker := "US2Y",
                   coupon := 4500/100000, maturity := "2026/11/30" }),
   ("91282CBL4", { productId := "91282CBL4", ticker := "US3Y",
                   coupon := 4750/100000, maturity := "2027/12/15" }),
   ("91282CCB5", { productId := "91282CCB5", ticker := "US5Y",
                   coupon := 4875/100000, maturity := "2029/11/30" }),
   ("91282CCS8", { productId := "91282CCS8", ticker := "US7Y",
                   coupon := 5000/100000, maturity := "2031/11/30" }),
   ("91282CDH2", { productId := "91282CDH2", ticker := "US10Y",
                   coupon := 5125/100000, maturity := "2034/12/15" }),
   ("912810TM0", { productId := "912810TM0", ticker := "US20Y",
                   coupon := 5250/100000, maturity := "2044/12/15" }),
   ("912810TL2", { productId := "912810TL2", ticker := "US30Y",
                   coupon := 5375/100000, maturity := "2054/12/15" })]

/-- ProductFactory<T>::QueryProduct: construct the Bond for a CUSIP, or
throw invalid_argument("Unknown CUSIP: ...") for a CUSIP outside the table. -/
def queryProduct (cusip : String) : Except String Bond :=
  match alookup bondTable cusip with
  | some b => .ok b
  | none => .error ("Unknown CUSIP: " ++ cusip)

/-- Price<T> from pricingservice.hpp: mid and bid/offer spread. -/
structure Price where
  product : Bond
  mid : ℚ
  bidOfferSpread : ℚ
  deriving DecidableEq, Repr

/-- PricingService<T>::GetData: stored price, or a
"Key not found: <key>" runtime error; the store is only read. -/
def pricingGetData (store : List (String × Price)) (key : String) :
    Except String Price :=
  match alookup store key with
  | some v => .ok v
  | none => .error ("Key not found: " ++ key)

/-- Order from marketdataservice.hpp: price, quantity and side. -/
structure Order where
  price : ℚ
  quantity : Int
  side : PricingSide
  deriving DecidableEq, Repr

/-- OrderBook<T> from marketdataservice.hpp. -/
structure OrderBook where
  product : Bond
  bidStack : List Order
  offerStack : List Order
  deriving DecidableEq, Repr

/-- The MarketDataService keyed store
`unordered_map<string, OrderBook<T>> orderBookMap`. -/
abbrev BookStore := List (String × OrderBook)

/-- MarketDataService<T>::GetData: on a missing key it does NOT fail — it
emplaces a fresh empty OrderBook for `QueryProduct(key)` (propagating the
UnknownProduct error for a CUSIP outside the table) and returns it together
with the mutated store; on a hit it returns the stored book unchanged. -/
def mdGetData (store : BookStore) (key : String) :
    Except String (OrderBook × BookStore) :=
  match alookup store key with
  | some b => .ok (b, store)
  | none =>
      match queryProduct key with
      | .ok prod =>
          let b : OrderBook := { product := prod, bidStack := [], offerStack := [] }
          .ok (b, store ++ [(key, b)])
      | .error e => .error e

/-- The empty order book MarketDataService::GetData creates for the 2Y note. -/
def emptyBook2Y : OrderBook :=
  { product := { productId := "91282CAV3", ticker := "US2Y",
                 coupon := 4500/100000, maturity := "2026/11/30" },
    bidStack := [], offerStack := [] }

/-- C5 counterexample: on the empty store and the known CUSIP 91282CAV3,
MarketDataService::GetData does not fail with NotFound and does not leave
the store unchanged — it creates, stores and returns an empty order book. -/
theorem claim5_cex_mdGetData_creates :
    mdGetData [] "91282CAV3" = .ok (emptyBook2Y, [("91282CAV3", emptyBook2Y)]) ∧
    ([("91282CAV3", emptyBook2Y)] : BookStore) ≠ [] := by
  exact ⟨by rfl, by decide⟩

/-- C5 (amended): PricingService::GetData (like the other map-backed
services) fails with a NotFound error on an absent key, leaves its store
untouched, and returns the stored value for a present key;
MarketDataService::GetData is the exception: on an absent key it
creates-and-stores an empty order book for a known CUSIP (returning it with
the store extended), and fails with UnknownProduct for a CUSIP outside the
product table. -/
theorem claim5_amended_getData (store : List (String × Price)) (bs : BookStore)
    (key : String) :
    (alookup store key = none →
      pricingGetData store key = .error ("Key not found: " ++ key)) ∧
    (∀ v, alookup store key = some v → pricingGetData store key = .ok v) ∧
    (∀ b, alookup bs key = some b → mdGetData bs key = .ok (b, bs)) ∧
    (∀ prod, alookup bs key = none → queryProduct key = .ok prod →
      mdGetData bs key = .ok
        ({ product := prod, bidStack := [], offerStack := [] },
         bs ++ [(key, { product := prod, bidStack := [], offerStack := [] })])) ∧
    (∀ e, alookup bs key = none → queryProduct key = .error e →
      mdGetData bs key = .error e) := by
  refine ⟨fun h => ?_, fun v h => ?_, fun b h => ?_, fun prod h hq => ?_,
    fun e h hq => ?_⟩
  · simp [pricingGetData, h]
  · simp [pricingGetData, h]
  · simp [mdGetData, h]
  · simp [mdGetData, h, hq]
  · simp [mdGetData, h, hq]

/-- C5 witness: the amended GetData behaviour evaluated on the empty stores,
a stored entry, and the unknown CUSIP "XXX". -/
theorem claim5_amended_getData_witness :
    pricingGetData [] "91282CAV3" = .error ("Key not found: " ++ "91282CAV3") ∧
    mdGetData [] "91282CAV3" = .ok (emptyBook2Y, [("91282CAV3", emptyBook2Y)]) ∧
    mdGetData [] "XXX" = .error ("Unknown CUSIP: " ++ "XXX") := by
  refine ⟨(claim5_amended_getData [] [] "91282CAV3").1 (by decide), ?_, ?_⟩
  · have h := (claim5_amended_getData [] [] "91282CAV3").2.2.2.1
      emptyBook2Y.product (by decide) (by rfl)
    simpa [emptyBook2Y] using h
  · exact (claim5_amended_getData [] [] "XXX").2.2.2.2 _ (by decide) (by rfl)

/-! ## Order-book depth aggregation (marketdataservice.hpp, C9) -/

/-- MarketDataService<T>::Aggregate: build `priceMap[price] += quantity`
over the stack, then emit one Order per entry carrying the given side.
The C++ map is an `unordered_map` with unspecified iteration order; the
embedding fixes first-insertion order, and only order-independent
properties are proved. -/
def aggregateStack (stack : List Order) (side : PricingSide) : List Order :=
  (stack.foldl (fun m o => bump m o.price o.quantity) []).map
    (fun kv => { price := kv.1, quantity := kv.2, side })

/-- MarketDataService<T>::AggregateDepth: replace the book by one with both
stacks aggregated, bids tagged BID and offers tagged OFFER. -/
def aggregateDepthBook (book : OrderBook) : OrderBook :=
  { product := book.product,
    bidStack := aggregateStack book.bidStack PricingSide.BID,
    offerStack := aggregateStack book.offerStack PricingSide.OFFER }

/-- Total quantity resting at price `p` in a stack. -/
def sumQtyAt (p : ℚ) (stack : List Order) : Int :=
  ((stack.filter (fun o => o.price = p)).map (·.quantity)).sum

/-- Total of the values stored under key `p` in a price map. -/
def sumAtKey (p : ℚ) (m : List (ℚ × Int)) : Int :=
  ((m.filter (fun kv => kv.1 = p)).map (·.2)).sum

theorem valAt_priceFold (stack : List Order) :
    ∀ (m : List (ℚ × Int)) (p : ℚ),
      valAt (stack.foldl (fun m o => bump m o.price o.quantity) m) p =
        valAt m p + sumQtyAt p stack := by
  induction stack with
  | nil =>
      intro m p
      simp [sumQtyAt]
  | cons o os ih =>
      intro m p
      simp only [List.foldl_cons]
      rw [ih, valAt_bump]
      by_cases h : o.price = p <;> simp [sumQtyAt, h] <;> ring

theorem nodup_keys_priceFold (stack : List Order) :
    ∀ (m : List (ℚ × Int)), (keysOf m).Nodup →
      (keysOf (stack.foldl (fun m o => bump m o.price o.quantity) m)).Nodup := by
  induction stack with
  | nil =>
      intro m h
      simpa using h
  | cons o os ih =>
      intro m h
      exact ih _ (nodup_keysOf_bump _ _ _ h)

theorem sumAtKey_cons (p k : ℚ) (v : Int) (tl : List (ℚ × Int)) :
    sumAtKey p ((k, v) :: tl) = (if k = p then v else 0) + sumAtKey p tl := by
  by_cases hk : k = p <;> simp [sumAtKey, List.filter_cons, hk]

theorem sumQtyAt_cons (p : ℚ) (o : Order) (os : List Order) :
    sumQtyAt p (o :: os) =
      (if o.price = p then o.quantity else 0) + sumQtyAt p os := by
  by_cases h : o.price = p <;> simp [sumQtyAt, List.filter_cons, h]

theorem valAt_cons (p k : ℚ) (v : Int) (tl : List (ℚ × Int)) :
    valAt ((k, v) :: tl) p = if k = p then v else valAt tl p := by
  by_cases hk : k = p <;> simp [valAt, alookup, hk]

theorem sumAtKey_eq_zero (k : ℚ) (m : List (ℚ × Int)) (h : k ∉ keysOf m) :
    sumAtKey k m = 0 := by
  induction m with
  | nil => simp [sumAtKey]
  | cons hd tl ih =>
      obtain ⟨k0, v⟩ := hd
      simp only [keysOf, List.map_cons, List.mem_cons, not_or] at h
      rw [sumAtKey_cons, if_neg (fun hh => h.1 hh.symm),
        ih (by simpa [keysOf] using h.2)]
      simp

theorem sumAtKey_eq_valAt (p : ℚ) (m : List (ℚ × Int))
    (h : (keysOf m).Nodup) : sumAtKey p m = valAt m p := by
  induction m with
  | nil => simp [sumAtKey, valAt, alookup]
  | cons hd tl ih =>
      obtain ⟨k, v⟩ := hd
      simp only [keysOf, List.map_cons, List.nodup_cons] at h
      rw [sumAtKey_cons, valAt_cons]
      by_cases hk : k = p
      · subst hk
        rw [if_pos rfl, if_pos rfl,
          sumAtKey_eq_zero k tl (by simpa [keysOf] using h.1)]
        simp
      · rw [if_neg hk, if_neg hk, ih (by simpa [keysOf] using h.2)]
        simp

theorem sumQtyAt_map_priceMap (p : ℚ) (m : List (ℚ × Int)) (side : PricingSide) :
    sumQtyAt p (m.map (fun kv => { price := kv.1, quantity := kv.2, side : Order }))
      = sumAtKey p m := by
  induction m with
  | nil => simp [sumQtyAt, sumAtKey]
  | cons hd tl ih =>
      obtain ⟨k, v⟩ := hd
      simp only [List.map_cons]
      rw [sumQtyAt_cons, sumAtKey_cons]
      simp [ih]

theorem sumQtyAt_aggregateStack (p : ℚ) (stack : List Order) (side : PricingSide) :
    sumQtyAt p (aggregateStack stack side) = sumQtyAt p stack := by
  rw [aggregateStack, sumQtyAt_map_priceMap,
    sumAtKey_eq_valAt _ _ (nodup_keys_priceFold stack [] (by simp [keysOf])),
    valAt_priceFold stack [] p]
  simp [valAt, alookup]

theorem nodup_prices_aggregateStack (stack : List Order) (side : PricingSide) :
    ((aggregateStack stack side).map (·.price)).Nodup := by
  have h := nodup_keys_priceFold stack [] (by simp [keysOf])
  have : (aggregateStack stack side).map (·.price) =
      keysOf (stack.foldl (fun m o => bump m o.price o.quantity) []) := by
    simp [aggregateStack, keysOf, List.map_map]
  rw [this]
  exact h

theorem side_aggregateStack (stack : List Order) (side : PricingSide) :
    ∀ o ∈ aggregateStack stack side, o.side = side := by
  intro o ho
  simp only [aggregateStack, List.mem_map] at ho
  obtain ⟨kv, _, rfl⟩ := ho
  rfl

/-- C9: after AggregateDepth, each side of the book holds at most one order
per distinct price (the price lists are duplicate-free), the quantity
resting at every price equals the total quantity at that price before
aggregation, and every aggregated order carries its stack's side tag. -/
theorem claim9_aggregate_depth (book : OrderBook) :
    ((aggregateDepthBook book).bidStack.map (·.price)).Nodup ∧
    ((aggregateDepthBook book).offerStack.map (·.price)).Nodup ∧
    (∀ p : ℚ, sumQtyAt p (aggregateDepthBook book).bidStack
        = sumQtyAt p book.bidStack) ∧
    (∀ p : ℚ, sumQtyAt p (aggregateDepthBook book).offerStack
        = sumQtyAt p book.offerStack) ∧
    (∀ o ∈ (aggregateDepthBook book).bidStack, o.side = PricingSide.BID) ∧
    (∀ o ∈ (aggregateDepthBook book).offerStack, o.side = PricingSide.OFFER) := by
  refine ⟨nodup_prices_aggregateStack _ _, nodup_prices_aggregateStack _ _,
    fun p => sumQtyAt_aggregateStack p _ _, fun p => sumQtyAt_aggregateStack p _ _,
    side_aggregateStack _ _, side_aggregateStack _ _⟩

/-- A book whose bid stack carries two entries at the same price. -/
def claim9Book : OrderBook :=
  { product := { productId := "91282CAV3", ticker := "US2Y",
                 coupon := 45/1000, maturity := "2026/11/30" },
    bidStack := [{ price := 99, quantity := 10000000, side := PricingSide.BID },
                 { price := 99, quantity := 20000000, side := PricingSide.BID }],
    offerStack := [{ price := 100, quantity := 5000000, side := PricingSide.OFFER }] }

/-- C9 witness: the duplicate 99-priced bids collapse to a single aggregated
bid of 30,000,000, and the head of the aggregated bid stack is tagged BID. -/
theorem claim9_aggregate_depth_witness :
    sumQtyAt 99 (aggregateDepthBook claim9Book).bidStack = 30000000 ∧
    (aggregateDepthBook claim9Book).bidStack =
      [{ price := 99, quantity := 30000000, side := PricingSide.BID }] := by
  constructor
  · rw [(claim9_aggregate_depth claim9Book).2.2.1 99]
    decide
  · decide

/-! ## AlgoExecutionService (SimpleAlgoOrderFactory.hpp, AlgoExecutionService.hpp) -/

/-- ExecutionOrder<T> (BaseExecutionOrder fields, ExecutionOrder.hpp). -/
structure ExecutionOrder where
  product : Bond
  side : PricingSide
  orderId : String
  orderType : OrderType
  price : ℚ
  visibleQuantity : Int
  hiddenQuantity : Int
  parentOrderId : String
  isChildOrder : Bool
  deriving DecidableEq, Repr

/-- AlgoExecution<T>: an ExecutionOrder together with the target Market. -/
structure AlgoExecution where
  order : ExecutionOrder
  market : Market
  deriving DecidableEq, Repr

/-- `std::max_element` with ComparePriceAsc: the first order of maximal
price (the running best is replaced only on a strictly greater price);
`none` on an empty stack, where the C++ dereferences an end iterator. -/
def maxElemByPrice : List Order → Option Order
  | [] => none
  | o :: os => some (os.foldl (fun best x => if best.price < x.price then x else best) o)

/-- `std::min_element` with ComparePriceAsc: the first order of minimal
price; `none` on an empty stack. -/
def minElemByPrice : List Order → Option Order
  | [] => none
  | o :: os => some (os.foldl (fun best x => if x.price < best.price then x else best) o)

/-- OrderBook<T>::BestBidOffer: highest-price bid and lowest-price offer. -/
def bestBidOffer (book : OrderBook) : Option (Order × Order) :=
  match maxElemByPrice book.bidStack, minElemByPrice book.offerStack with
  | some bid, some offer => some (bid, offer)
  | _, _ => none

/-- SimpleAlgoOrderFactory<T>::CreateExecutionOrder.  The random order ids
are abstracted as parameters (`"Algo"+11` / `"AlgoParent"+5` random
alphanumerics in the source).  C++ `count % 2` on a signed long is
truncated remainder, `Int.tmod`. -/
def createExecutionOrder (book : OrderBook) (count : Int)
    (orderId parentOrderId : String) : Option ExecutionOrder :=
  match bestBidOffer book with
  | none => none
  | some (bid, offer) =>
      let sq : PricingSide × ℚ × Int :=
        if offer.price - bid.price ≤ 1/128 then
          if Int.tmod count 2 = 0 then (PricingSide.BID, offer.price, bid.quantity)
          else (PricingSide.OFFER, bid.price, offer.quantity)
        else (PricingSide.BID, bid.price, bid.quantity)
      some { product := book.product, side := sq.1, orderId,
             orderType := OrderType.MARKET, price := sq.2.1,
             visibleQuantity := sq.2.2, hiddenQuantity := 0,
             parentOrderId, isChildOrder := false }

/-- The AlgoExecutionService state: the keyed store `algoExecutionData`
and the per-service counter `count`. -/
structure AlgoExecState where
  store : List (String × AlgoExecution)
  count : Int
  deriving DecidableEq, Repr

/-- AlgoExecutionService<T>::AlgoExecuteOrder: create the ExecutionOrder at
the current counter, increment the counter, wrap the order with market
BROKERTEC, overwrite the store entry keyed on the product id, and notify
every listener with the wrapped AlgoExecution (returned notification list). -/
def algoExecuteOrder (st : AlgoExecState) (book : OrderBook)
    (orderId parentOrderId : String) :
    Option (AlgoExecState × List AlgoExecution) :=
  match createExecutionOrder book st.count orderId parentOrderId with
  | none => none
  | some eo =>
      let ae : AlgoExecution := { order := eo, market := Market.BROKERTEC }
      some ({ store := ainsert st.store book.product.productId ae,
              count := st.count + 1 }, [ae])

theorem tmod_two_eq_zero_iff_even (a : ℤ) : Int.tmod a 2 = 0 ↔ Even a := by
  rcases a with m | m
  · have h1 : Int.tmod (Int.ofNat m) 2 = Int.ofNat (m % 2) := rfl
    rw [h1, Int.ofNat_eq_coe, show Int.ofNat m = (m : ℤ) from rfl,
      Int.even_coe_nat, Nat.even_iff]
    constructor
    · intro h; exact_mod_cast h
    · intro h; exact_mod_cast h
  · have h1 : Int.tmod (Int.negSucc m) 2 = -Int.ofNat ((m + 1) % 2) := rfl
    rw [h1, Int.negSucc_eq, even_neg, neg_eq_zero, Int.ofNat_eq_coe]
    rw [show ((m : ℤ) + 1) = ((m + 1 : ℕ) : ℤ) by push_cast; ring]
    rw [Int.even_coe_nat, Nat.even_iff]
    constructor
    · intro h; exact_mod_cast h
    · intro h; exact_mod_cast h

/-- C8: on an order-book event with best bid and best offer defined,
AlgoExecuteOrder produces exactly one AlgoExecution with market BROKERTEC,
whose ExecutionOrder follows the factory policy — spread ≤ 1/128 with even
counter: side BID at the offer price for the best bid order's quantity;
spread ≤ 1/128 with odd counter: side OFFER at the bid price for the best
offer order's quantity; wide spread: side BID at the bid price for the best
bid order's quantity — with orderType MARKET, hiddenQty 0,
visibleQty = quantity, isChildOrder false, the store entry for the product
overwritten, and the counter incremented by exactly one. -/
theorem claim8_algo_execution_policy (st : AlgoExecState) (book : OrderBook)
    (oid pid : String) (bid offer : Order)
    (h : bestBidOffer book = some (bid, offer)) :
    ∃ eo : ExecutionOrder,
      createExecutionOrder book st.count oid pid = some eo ∧
      algoExecuteOrder st book oid pid =
        some ({ store := ainsert st.store book.product.productId
                  { order := eo, market := Market.BROKERTEC },
                count := st.count + 1 },
              [{ order := eo, market := Market.BROKERTEC }]) ∧
      eo.product = book.product ∧ eo.orderId = oid ∧ eo.parentOrderId = pid ∧
      eo.orderType = OrderType.MARKET ∧ eo.hiddenQuantity = 0 ∧
      eo.isChildOrder = false ∧
      (if offer.price - bid.price ≤ 1/128 then
        (if Even st.count then
          eo.side = PricingSide.BID ∧ eo.price = offer.price ∧
            eo.visibleQuantity = bid.quantity
        else
          eo.side = PricingSide.OFFER ∧ eo.price = bid.price ∧
            eo.visibleQuantity = offer.quantity)
      else
        eo.side = PricingSide.BID ∧ eo.price = bid.price ∧
          eo.visibleQuantity = bid.quantity) := by
  by_cases hs : offer.price - bid.price ≤ 1/128
  · by_cases he : Even st.count
    · have htm := (tmod_two_eq_zero_iff_even st.count).mpr he
      refine ⟨⟨book.product, PricingSide.BID, oid, OrderType.MARKET, offer.price,
        bid.quantity, 0, pid, false⟩, ?_, ?_, ?_⟩
      · simp only [createExecutionOrder, h]
        rw [if_pos hs, if_pos htm]
      · simp only [algoExecuteOrder, createExecutionOrder, h]
        rw [if_pos hs, if_pos htm]
      · refine ⟨rfl, rfl, rfl, rfl, rfl, rfl, ?_⟩
        rw [if_pos hs, if_pos he]
        exact ⟨rfl, rfl, rfl⟩
    · have htm : ¬ Int.tmod st.count 2 = 0 := fun hc =>
        he ((tmod_two_eq_zero_iff_even st.count).mp hc)
      refine ⟨⟨book.product, PricingSide.OFFER, oid, OrderType.MARKET, bid.price,
        offer.quantity, 0, pid, false⟩, ?_, ?_, ?_⟩
      · simp only [createExecutionOrder, h]
        rw [if_pos hs, if_neg htm]
      · simp only [algoExecuteOrder, createExecutionOrder, h]
        rw [if_pos hs, if_neg htm]
      · refine ⟨rfl, rfl, rfl, rfl, rfl, rfl, ?_⟩
        rw [if_pos hs, if_neg he]
        exact ⟨rfl, rfl, rfl⟩
  · refine ⟨⟨book.product, PricingSide.BID, oid, OrderType.MARKET, bid.price,
      bid.quantity, 0, pid, false⟩, ?_, ?_, ?_⟩
    · simp only [createExecutionOrder, h]
      rw [if_neg hs]
    · simp only [algoExecuteOrder, createExecutionOrder, h]
      rw [if_neg hs]
    · refine ⟨rfl, rfl, rfl, rfl, rfl, rfl, ?_⟩
      rw [if_neg hs]
      exact ⟨rfl, rfl, rfl⟩

/-- A book with bestBid 99-317 and bestOffer 100-000, one entry per side,
spread 1/256 ≤ 1/128. -/
def claim8Book : OrderBook :=
  { product := { productId := "91282CAV3", ticker := "US2Y",
                 coupon := 45/1000, maturity := "2026/11/30" },
    bidStack := [{ price := 99 + 31/32 + 7/256, quantity := 10000000,
                   side := PricingSide.BID }],
    offerStack := [{ price := 100, quantity := 20000000,
                     side := PricingSide.OFFER }] }

/-- C8 witness: at the even counter 0 on the 1/256-spread book the produced
order is a BID at the offer price for the best bid order's quantity, the
counter moves to 1, and the AlgoExecution is tagged BROKERTEC. -/
theorem claim8_algo_execution_policy_witness :
    ∃ eo : ExecutionOrder,
      algoExecuteOrder { store := [], count := 0 } claim8Book "AlgoX" "AlgoParentY" =
        some ({ store := [("91282CAV3", { order := eo, market := Market.BROKERTEC })],
                count := 1 },
              [{ order := eo, market := Market.BROKERTEC }]) ∧
      eo.side = PricingSide.BID ∧ eo.price = 100 ∧
      eo.visibleQuantity = 10000000 := by
  obtain ⟨eo, hceo, halgo, hrest⟩ :=
    claim8_algo_execution_policy { store := [], count := 0 } claim8Book
      "AlgoX" "AlgoParentY"
      { price := 99 + 31/32 + 7/256, quantity := 10000000, side := PricingSide.BID }
      { price := 100, quantity := 20000000, side := PricingSide.OFFER }
      (by rfl)
  have hpol := hrest.2.2.2.2.2.2
  rw [if_pos (by norm_num), if_pos (by decide)] at hpol
  exact ⟨eo, by simpa [claim8Book, ainsert] using halgo, hpol.1, hpol.2.1,
    by rw [hpol.2.2]⟩

/-! ## InquiryService (inquiryservice.hpp) -/

inductive InquiryState | RECEIVED | QUOTED | DONE | REJECTED | CUSTOMER_REJECTED
  deriving DecidableEq, Repr

/-- Inquiry<T>: id, product, side, quantity, price and state. -/
structure Inquiry where
  inquiryId : String
  product : Bond
  side : Side
  quantity : Int
  price : ℚ
  state : InquiryState
  deriving DecidableEq, Repr

/-- The InquiryService keyed store
`unordered_map<string, Inquiry<T>> inquiryData`. -/
abbrev InqStore := List (String × Inquiry)

/-- `map::erase(key)`: drop the entry under the key (the first occurrence;
the C++ container holds at most one). -/
def aerase [DecidableEq α] : List (α × β) → α → List (α × β)
  | [], _ => []
  | (k, v) :: rest, key => if k = key then rest else (k, v) :: aerase rest key

/-- The common tail of InquiryService<T>::OnMessage: erase the inquiry when
it is DONE, otherwise assign `inquiryData[id] = data`; then notify every
listener with the inquiry. -/
def inqTail (store : InqStore) (data : Inquiry) : InqStore × List Inquiry :=
  if data.state = InquiryState.DONE then
    (aerase store data.inquiryId, [data])
  else
    (ainsert store data.inquiryId data, [data])

/-- InquiryService<T>::OnMessage, with the connector inlined:
on RECEIVED, `connector->Publish(data)` flips the state to QUOTED and
re-enters OnMessage (the inquiry travels by reference, so the caller
continues with the mutated object); on QUOTED, the state becomes DONE, the
store is updated and the listeners are notified inside the case; every path
then runs the common tail.  The `fuel` bound dominates the recursion depth
(at most 2 per record); `none` means fuel ran out and is never returned for
fuel ≥ 2.  The returned triple is (final store, final inquiry value,
sequence of listener ProcessAdd notifications). -/
def inqOnMessage : Nat → InqStore → Inquiry → Option (InqStore × Inquiry × List Inquiry)
  | 0, _, _ => none
  | Nat.succ fuel, store, data =>
    match data.state with
    | InquiryState.RECEIVED =>
        match inqOnMessage fuel store { data with state := InquiryState.QUOTED } with
        | none => none
        | some (store1, data2, notes1) =>
            let t := inqTail store1 data2
            some (t.1, data2, notes1 ++ t.2)
    | InquiryState.QUOTED =>
        let data1 := { data with state := InquiryState.DONE }
        let store1 := ainsert store data1.inquiryId data1
        let t := inqTail store1 data1
        some (t.1, data1, [data1] ++ t.2)
    | _ =>
        let t := inqTail store data
        some (t.1, data, t.2)

theorem keysOf_ainsert [DecidableEq α] (m : List (α × β)) (k : α) (v : β) :
    keysOf (ainsert m k v) =
      if k ∈ keysOf m then keysOf m else keysOf m ++ [k] := by
  induction m with
  | nil => simp [ainsert, keysOf]
  | cons hd tl ih =>
      obtain ⟨k0, w⟩ := hd
      by_cases h0 : k0 = k
      · subst h0; simp [ainsert, keysOf]
      · have hne : ¬ k = k0 := fun h => h0 h.symm
        simp only [ainsert, if_neg h0, keysOf, List.map_cons]
        simp only [keysOf] at ih
        rw [ih]
        by_cases hmem : k ∈ List.map (fun x => x.1) tl
        · simp [List.mem_cons, hmem, hne]
        · simp [List.mem_cons, hmem, hne]

theorem nodup_keysOf_ainsert [DecidableEq α] (m : List (α × β)) (k : α) (v : β)
    (h : (keysOf m).Nodup) : (keysOf (ainsert m k v)).Nodup := by
  rw [keysOf_ainsert]
  by_cases hmem : k ∈ keysOf m
  · simpa [hmem]
  · simp only [hmem, if_false]
    simpa [List.nodup_append] using ⟨h, hmem⟩

theorem alookup_aerase_self [DecidableEq α] (m : List (α × β)) (k : α)
    (h : (keysOf m).Nodup) : alookup (aerase m k) k = none := by
  induction m with
  | nil => simp [aerase, alookup]
  | cons hd tl ih =>
      obtain ⟨k0, w⟩ := hd
      simp only [keysOf, List.map_cons, List.nodup_cons] at h
      by_cases h0 : k0 = k
      · subst h0
        simp only [aerase, if_pos rfl]
        clear ih
        induction tl with
        | nil => simp [alookup]
        | cons hd2 tl2 ih2 =>
            obtain ⟨k1, v1⟩ := hd2
            simp only [keysOf, List.map_cons, List.mem_cons, not_or,
              List.nodup_cons] at h
            have hne : ¬ k1 = k0 := fun hh => h.1.1 hh.symm
            simp only [alookup, hne, if_false]
            exact ih2 ⟨fun hm => h.1.2 hm, h.2.2⟩
      · simp only [aerase, if_neg h0, alookup, h0, if_false]
        exact ih (by simpa [keysOf] using h.2)

theorem aerase_of_not_mem [DecidableEq α] (m : List (α × β)) (k : α)
    (h : alookup m k = none) : aerase m k = m := by
  induction m with
  | nil => simp [aerase]
  | cons hd tl ih =>
      obtain ⟨k0, w⟩ := hd
      by_cases h0 : k0 = k
      · subst h0; simp [alookup] at h
      · simp only [alookup, h0, if_false] at h
        simp [aerase, h0, ih h]

/-- C3 (amended): a RECEIVED inquiry fed once to OnMessage passes through
QUOTED to DONE within that single invocation and is absent from the store
afterwards, but the service's listeners receive exactly THREE ProcessAdd
calls for it (once inside the QUOTED case and once per traversal of the
common notification tail of the two nested OnMessage activations), each
carrying the inquiry in state DONE. -/
theorem claim3_amended_inquiry_done (store : InqStore) (inq : Inquiry)
    (hn : (keysOf store).Nodup) (hs : inq.state = InquiryState.RECEIVED) :
    ∃ store' : InqStore,
      inqOnMessage 2 store inq =
        some (store', { inq with state := InquiryState.DONE },
          [{ inq with state := InquiryState.DONE },
           { inq with state := InquiryState.DONE },
           { inq with state := InquiryState.DONE }]) ∧
      alookup store' inq.inquiryId = none := by
  have h1 : alookup (aerase (ainsert store inq.inquiryId
      { inq with state := InquiryState.DONE }) inq.inquiryId) inq.inquiryId
      = none :=
    alookup_aerase_self _ _ (nodup_keysOf_ainsert _ _ _ hn)
  refine ⟨aerase (aerase (ainsert store inq.inquiryId
      { inq with state := InquiryState.DONE }) inq.inquiryId) inq.inquiryId,
    ?_, ?_⟩
  · simp only [inqOnMessage, hs, inqTail]
    simp
  · rw [aerase_of_not_mem _ _ h1]
    exact h1

/-- A concrete RECEIVED inquiry. -/
def claim3Inq : Inquiry :=
  { inquiryId := "INQ1",
    product := { productId := "91282CAV3", ticker := "US2Y",
                 coupon := 45/1000, maturity := "2026/11/30" },
    side := Side.BUY, quantity := 1000000, price := 100,
    state := InquiryState.RECEIVED }

/-- C3 counterexample: on a concrete RECEIVED inquiry the single OnMessage
invocation emits three ProcessAdd notifications, not exactly one. -/
theorem claim3_cex_three_notifications :
    inqOnMessage 2 [] claim3Inq =
      some ([], { claim3Inq with state := InquiryState.DONE },
        [{ claim3Inq with state := InquiryState.DONE },
         { claim3Inq with state := InquiryState.DONE },
         { claim3Inq with state := InquiryState.DONE }]) ∧
    ([{ claim3Inq with state := InquiryState.DONE },
      { claim3Inq with state := InquiryState.DONE },
      { claim3Inq with state := InquiryState.DONE }].length = 1) = False := by
  exact ⟨by rfl, by simp⟩

/-- C3 witness: the amended theorem applied to the empty store and the
concrete RECEIVED inquiry. -/
theorem claim3_amended_inquiry_done_witness :
    ∃ store' : InqStore,
      inqOnMessage 2 [] claim3Inq =
        some (store', { claim3Inq with state := InquiryState.DONE },
          [{ claim3Inq with state := InquiryState.DONE },
           { claim3Inq with state := InquiryState.DONE },
           { claim3Inq with state := InquiryState.DONE }]) ∧
      alookup store' "INQ1" = none := by
  have h := claim3_amended_inquiry_done [] claim3Inq (by simp [keysOf]) (by rfl)
  simpa [claim3Inq] using h

/-! ## Fractional price codec (PriceUtils.hpp)

Prices are embedded as rationals.  Every value fed to the codec by this
program is a dyadic rational `X + YY/32 + Z/256` with X far below 2^45;
on that domain every intermediate double of `Frac2Price`/`Price2Frac`
(sums, differences, products with 32 and 256, `std::floor`) is exactly
representable, so IEEE arithmetic computes the rational value exactly and
the ℚ embedding is faithful.  `std::to_string(int)` is modelled by the
canonical decimal rendering `natToString`/`intToString`; `std::stod` is
modelled by the longest-digit-prefix scan `stodNat`, which agrees with
stod on the nonnegative-integer tokens the codec consumes. -/

def digitChar (d : ℕ) : Char :=
  match d with
  | 0 => '0' | 1 => '1' | 2 => '2' | 3 => '3' | 4 => '4'
  | 5 => '5' | 6 => '6' | 7 => '7' | 8 => '8' | 9 => '9'
  | _ => '*'

def digitVal (c : Char) : ℕ := c.toNat - 48

/-- The decimal-digit loop behind `std::to_string` for a nonnegative value:
peel the last digit, recurse on `n / 10`; `fuel` dominates the digit count. -/
def natToStringAux : ℕ → ℕ → List Char → List Char
  | 0, _, acc => acc
  | fuel + 1, n, acc =>
      if n < 10 then digitChar (n % 10) :: acc
      else natToStringAux fuel (n / 10) (digitChar (n % 10) :: acc)

/-- Canonical decimal rendering of a natural number (`std::to_string`). -/
def natToString (n : ℕ) : List Char := natToStringAux (n + 1) n []

/-- `std::to_string` on a C++ int. -/
def intToString (i : Int) : List Char :=
  if i < 0 then '-' :: natToString i.natAbs else natToString i.natAbs

/-- Longest-digit-prefix accumulator of `std::stod`. -/
def natScanAux : List Char → ℕ → ℕ
  | [], acc => acc
  | c :: cs, acc =>
      if c.isDigit then natScanAux cs (acc * 10 + digitVal c) else acc

/-- `std::stod` on the nonnegative-integer tokens the codec consumes:
the value of the longest digit prefix, failing (stod throws) when the
first character is not a digit. -/
def stodNat : List Char → Option ℕ
  | [] => none
  | c :: cs => if c.isDigit then some (natScanAux (c :: cs) 0) else none

/-- PriceUtils::Frac2Price: split at the first dash, parse the integer
part, require exactly three fractional characters, read `+` in the last
position as the digit 4, and return X + YY/32 + Z/256. -/
def frac2Price (s : String) : Except String ℚ :=
  let cs := s.toList
  let intPart := cs.takeWhile (fun c => c ≠ '-')
  match cs.dropWhile (fun c => c ≠ '-') with
  | [] =>
      .error "Invalid format: Dash '-' not found. Expected format: 'X-XX+' or 'X-XXY'."
  | _ :: fracRest =>
      match stodNat intPart with
      | none => .error "Invalid format: Integer part is not a valid number."
      | some price1 =>
          if fracRest.length = 3 then
            let fp := if fracRest.getD 2 ' ' = '+' then fracRest.set 2 '4'
                      else fracRest
            match stodNat (fp.take 2), stodNat (fp.drop 2) with
            | some p32, some p256 =>
                .ok ((price1 : ℚ) + (p32 : ℚ) / 32 + (p256 : ℚ) / 256)
            | _, _ =>
                .error "Invalid format: Fractional part contains non-numeric characters."
          else .error "Invalid format: Fractional part should be exactly 3 characters."

/-- C++ `static_cast<int>` on a double: truncation toward zero. -/
def cppTrunc (q : ℚ) : Int := if 0 ≤ q then Int.floor q else -(Int.floor (-q))

/-- PriceUtils::Price2Frac: floor for the integer part, truncate
`frac * 32` for the 32nds (zero-padded to two digits), truncate
`frac * 256` modulo 8 for the 256ths, rendering 4 as '+'. -/
def price2Frac (price : ℚ) : String :=
  let intpart : Int := Int.floor price
  let fracpart : ℚ := price - intpart
  let xy : Int := cppTrunc (fracpart * 32)
  let z : Int := Int.tmod (cppTrunc (fracpart * 256)) 8
  String.mk (intToString intpart ++ '-' ::
    ((if xy < 10 then ['0'] else []) ++ intToString xy) ++
    (if z = 4 then ['+'] else intToString z))

/-- The canonical encoding "X-YYZ" of a fractional price: the decimal
digits of X, a dash, YY zero-padded to two digits, and the 256ths
character. -/
def mkFracStr (x yy : ℕ) (zc : Char) : String :=
  String.mk (natToString x ++ '-' ::
    ((if yy < 10 then ['0'] else []) ++ natToString yy) ++ [zc])

theorem digitChar_isDigit (d : ℕ) (h : d < 10) : (digitChar d).isDigit = true := by
  interval_cases d <;> decide

theorem digitVal_digitChar (d : ℕ) (h : d < 10) : digitVal (digitChar d) = d := by
  interval_cases d <;> decide

theorem digitChar_ne_dash (d : ℕ) (h : d < 10) : digitChar d ≠ '-' := by
  interval_cases d <;> decide

theorem digitChar_ne_plus (d : ℕ) (h : d < 10) : digitChar d ≠ '+' := by
  interval_cases d <;> decide

theorem natToStringAux_acc (fuel : ℕ) :
    ∀ (n : ℕ) (acc : List Char),
      natToStringAux fuel n acc = natToStringAux fuel n [] ++ acc := by
  induction fuel with
  | zero => intro n acc; simp [natToStringAux]
  | succ f ih =>
      intro n acc
      by_cases h : n < 10
      · simp [natToStringAux, h]
      · simp only [natToStringAux, h, if_false]
        rw [ih (n / 10) (digitChar (n % 10) :: acc),
          ih (n / 10) [digitChar (n % 10)]]
        simp

theorem natToStringAux_fuelIrrel (n : ℕ) :
    ∀ (f1 f2 : ℕ), n < 10 ^ f1 → n < 10 ^ f2 → 0 < f1 → 0 < f2 →
      ∀ acc, natToStringAux f1 n acc = natToStringAux f2 n acc := by
  induction n using Nat.strong_induction_on with
  | _ n ih =>
      intro f1 f2 hf1 hf2 hp1 hp2 acc
      obtain ⟨g1, rfl⟩ := Nat.exists_eq_succ_of_ne_zero (Nat.pos_iff_ne_zero.mp hp1)
      obtain ⟨g2, rfl⟩ := Nat.exists_eq_succ_of_ne_zero (Nat.pos_iff_ne_zero.mp hp2)
      by_cases h : n < 10
      · simp [natToStringAux, h]
      · simp only [natToStringAux, h, if_false]
        have hn10 : n / 10 < n := Nat.div_lt_self (by omega) (by omega)
        have hb1 : n / 10 < 10 ^ g1 := by
          rw [Nat.div_lt_iff_lt_mul (by norm_num)]
          calc n < 10 ^ (g1 + 1) := hf1
          _ = 10 ^ g1 * 10 := by ring
        have hb2 : n / 10 < 10 ^ g2 := by
          rw [Nat.div_lt_iff_lt_mul (by norm_num)]
          calc n < 10 ^ (g2 + 1) := hf2
          _ = 10 ^ g2 * 10 := by ring
        have hg1 : 0 < g1 := by
          rcases Nat.eq_zero_or_pos g1 with h0 | h0
          · subst h0; simp at hf1; omega
          · exact h0
        have hg2 : 0 < g2 := by
          rcases Nat.eq_zero_or_pos g2 with h0 | h0
          · subst h0; simp at hf2; omega
          · exact h0
        exact ih (n / 10) hn10 g1 g2 hb1 hb2 hg1 hg2 _

theorem natToString_lt10 (n : ℕ) (h : n < 10) : natToString n = [digitChar n] := by
  simp [natToString, natToStringAux, h, Nat.mod_eq_of_lt h]

theorem natToString_ge10 (n : ℕ) (h : 10 ≤ n) :
    natToString n = natToString (n / 10) ++ [digitChar (n % 10)] := by
  have h1 : natToString n = natToStringAux n (n / 10) [digitChar (n % 10)] := by
    simp [natToString, natToStringAux, Nat.not_lt.mpr h]
  have hb1 : n / 10 < 10 ^ n :=
    lt_trans (Nat.div_lt_self (by omega) (by omega))
      (Nat.lt_pow_self (by norm_num) n)
  have hb2 : n / 10 < 10 ^ (n / 10 + 1) := by
    have hp := Nat.lt_pow_self (show (1:ℕ) < 10 by norm_num) (n / 10)
    have h2 : (10:ℕ) ^ (n / 10) ≤ 10 ^ (n / 10 + 1) :=
      Nat.pow_le_pow_right (by norm_num) (by omega)
    omega
  rw [h1, natToStringAux_acc, natToStringAux_fuelIrrel (n / 10) n (n / 10 + 1)
    hb1 hb2 (by omega) (by omega)]
  rfl

theorem natToString_all_digits (n : ℕ) :
    ∀ c ∈ natToString n, ∃ d, d < 10 ∧ c = digitChar d := by
  induction n using Nat.strong_induction_on with
  | _ n ih =>
      by_cases h : n < 10
      · rw [natToString_lt10 n h]
        intro c hc
        simp only [List.mem_singleton] at hc
        exact ⟨n, h, hc⟩
      · rw [natToString_ge10 n (by omega)]
        intro c hc
        rcases List.mem_append.mp hc with hc | hc
        · exact ih (n / 10) (Nat.div_lt_self (by omega) (by omega)) c hc
        · simp only [List.mem_singleton] at hc
          exact ⟨n % 10, Nat.mod_lt _ (by omega), hc⟩

theorem natToString_isDigit (n : ℕ) :
    ∀ c ∈ natToString n, c.isDigit = true := by
  intro c hc
  obtain ⟨d, hd, rfl⟩ := natToString_all_digits n c hc
  exact digitChar_isDigit d hd

theorem natToString_ne_dash (n : ℕ) :
    ∀ c ∈ natToString n, (c ≠ '-') = True := by
  intro c hc
  obtain ⟨d, hd, rfl⟩ := natToString_all_digits n c hc
  simp [digitChar_ne_dash d hd]

theorem natToString_ne_nil (n : ℕ) : natToString n ≠ [] := by
  by_cases h : n < 10
  · rw [natToString_lt10 n h]; simp
  · rw [natToString_ge10 n (by omega)]; simp

theorem natScanAux_append_digits (ds : List Char)
    (h : ∀ c ∈ ds, c.isDigit = true) :
    ∀ (es : List Char) (a : ℕ),
      natScanAux (ds ++ es) a = natScanAux es (natScanAux ds a) := by
  induction ds with
  | nil => intro es a; simp [natScanAux]
  | cons c cs ih =>
      intro es a
      have hc := h c (List.mem_cons_self c cs)
      simp only [List.cons_append, natScanAux, hc, if_true]
      exact ih (fun x hx => h x (List.mem_cons_of_mem c hx)) es _

theorem natScan_natToString (n : ℕ) : natScanAux (natToString n) 0 = n := by
  induction n using Nat.strong_induction_on with
  | _ n ih =>
      by_cases h : n < 10
      · rw [natToString_lt10 n h]
        simp [natScanAux, digitChar_isDigit n h, digitVal_digitChar n h]
      · rw [natToString_ge10 n (by omega),
          natScanAux_append_digits _ (natToString_isDigit _) _ _,
          ih (n / 10) (Nat.div_lt_self (by omega) (by omega))]
        have hlt : n % 10 < 10 := Nat.mod_lt _ (by omega)
        simp [natScanAux, digitChar_isDigit _ hlt, digitVal_digitChar _ hlt]
        omega

theorem stodNat_natToString (n : ℕ) : stodNat (natToString n) = some n := by
  obtain ⟨c, cs, hc⟩ : ∃ c cs, natToString n = c :: cs := by
    cases hh : natToString n with
    | nil => exact absurd hh (natToString_ne_nil n)
    | cons c cs => exact ⟨c, cs, rfl⟩
  have hdig : c.isDigit = true :=
    natToString_isDigit n c (hc ▸ List.mem_cons_self c cs)
  rw [hc]
  simp only [stodNat, hdig, if_true]
  rw [← hc, natScan_natToString]

theorem stodNat_two_digits (a b : ℕ) (ha : a < 10) (hb : b < 10) :
    stodNat [digitChar a, digitChar b] = some (10 * a + b) := by
  simp [stodNat, natScanAux, digitChar_isDigit a ha, digitChar_isDigit b hb,
    digitVal_digitChar a ha, digitVal_digitChar b hb]
  omega

theorem stodNat_one_digit (a : ℕ) (ha : a < 10) :
    stodNat [digitChar a] = some a := by
  simp [stodNat, natScanAux, digitChar_isDigit a ha, digitVal_digitChar a ha]

theorem takeWhile_append_all (p : Char → Bool) (l r : List Char)
    (h : ∀ c ∈ l, p c = true) :
    (l ++ r).takeWhile p = l ++ r.takeWhile p := by
  induction l with
  | nil => simp
  | cons c cs ih =>
      have hc := h c (List.mem_cons_self c cs)
      simp only [List.cons_append, List.takeWhile_cons, hc, if_true]
      rw [ih (fun x hx => h x (List.mem_cons_of_mem c hx))]

theorem dropWhile_append_all (p : Char → Bool) (l r : List Char)
    (h : ∀ c ∈ l, p c = true) :
    (l ++ r).dropWhile p = r.dropWhile p := by
  induction l with
  | nil => simp
  | cons c cs ih =>
      have hc := h c (List.mem_cons_self c cs)
      simp only [List.cons_append, List.dropWhile_cons, hc, if_true]
      exact ih (fun x hx => h x (List.mem_cons_of_mem c hx))

theorem pad2_eq (yy : ℕ) (h : yy ≤ 31) :
    (if yy < 10 then ['0'] else []) ++ natToString yy
      = [digitChar (yy / 10), digitChar (yy % 10)] := by
  interval_cases yy <;> decide

/-- Decoding a canonical fractional string "X-YYZ" yields
X + YY/32 + Z/256, reading '+' as 4. -/
theorem frac2Price_mkFracStr (x yy zv : ℕ) (zc : Char) (hyy : yy ≤ 31)
    (hzv : zv ≤ 7) (hzc : (zc = '+' ∧ zv = 4) ∨ zc = digitChar zv) :
    frac2Price (mkFracStr x yy zc) =
      .ok ((x : ℚ) + (yy : ℚ) / 32 + (zv : ℚ) / 256) := by
  have hcs : (mkFracStr x yy zc).toList =
      natToString x ++ '-' ::
        [digitChar (yy / 10), digitChar (yy % 10), zc] := by
    calc (mkFracStr x yy zc).toList
        = (natToString x ++ '-' ::
            ((if yy < 10 then ['0'] else []) ++ natToString yy)) ++ [zc] := rfl
      _ = (natToString x ++ '-' ::
            [digitChar (yy / 10), digitChar (yy % 10)]) ++ [zc] := by
          rw [pad2_eq yy hyy]
      _ = _ := by simp
  have hp : ∀ c ∈ natToString x, (decide (c ≠ '-')) = true := by
    intro c hc
    obtain ⟨d, hd, rfl⟩ := natToString_all_digits x c hc
    simpa using digitChar_ne_dash d hd
  have htake : ((mkFracStr x yy zc).toList.takeWhile (fun c => c ≠ '-'))
      = natToString x := by
    rw [hcs, takeWhile_append_all _ _ _ hp]
    simp
  have hdrop : ((mkFracStr x yy zc).toList.dropWhile (fun c => c ≠ '-'))
      = '-' :: [digitChar (yy / 10), digitChar (yy % 10), zc] := by
    rw [hcs, dropWhile_append_all _ _ _ hp]
    simp
  have hyyd : yy / 10 < 10 := by omega
  have hyym : yy % 10 < 10 := by omega
  have hyyeq : 10 * (yy / 10) + yy % 10 = yy := by omega
  simp only [frac2Price, htake, hdrop, stodNat_natToString]
  rw [if_pos (show ([digitChar (yy / 10), digitChar (yy % 10), zc].length = 3)
    from rfl)]
  rcases hzc with ⟨rfl, rfl⟩ | rfl
  · rw [show (if ([digitChar (yy / 10), digitChar (yy % 10), '+'].getD 2 ' ') = '+'
          then [digitChar (yy / 10), digitChar (yy % 10), '+'].set 2 '4'
          else [digitChar (yy / 10), digitChar (yy % 10), '+'])
        = [digitChar (yy / 10), digitChar (yy % 10), '4'] from rfl,
      show List.take 2 [digitChar (yy / 10), digitChar (yy % 10), '4']
        = [digitChar (yy / 10), digitChar (yy % 10)] from rfl,
      show List.drop 2 [digitChar (yy / 10), digitChar (yy % 10), '4']
        = ['4'] from rfl,
      stodNat_two_digits _ _ hyyd hyym,
      show stodNat ['4'] = some 4 from rfl, hyyeq]
  · have hzp : ¬ digitChar zv = '+' := digitChar_ne_plus zv (by omega)
    rw [if_neg (show ¬ (([digitChar (yy / 10), digitChar (yy % 10),
          digitChar zv].getD 2 ' ') = '+') from hzp),
      show List.take 2 [digitChar (yy / 10), digitChar (yy % 10), digitChar zv]
        = [digitChar (yy / 10), digitChar (yy % 10)] from rfl,
      show List.drop 2 [digitChar (yy / 10), digitChar (yy % 10), digitChar zv]
        = [digitChar zv] from rfl,
      stodNat_two_digits _ _ hyyd hyym, stodNat_one_digit zv (by omega), hyyeq]

theorem intToString_natCast (n : ℕ) : intToString (n : ℤ) = natToString n := by
  rw [intToString, if_neg (by omega)]
  congr 1

/-- Encoding X + YY/32 + Z/256 produces the canonical "X-YYZ" string,
rendering Z = 4 as '+'. -/
theorem price2Frac_mkFracStr (x yy zv : ℕ) (hyy : yy ≤ 31) (hzv : zv ≤ 7) :
    price2Frac ((x : ℚ) + (yy : ℚ) / 32 + (zv : ℚ) / 256)
      = mkFracStr x yy (if zv = 4 then '+' else digitChar zv) := by
  have hyq : ((yy : ℚ)) ≤ 31 := by exact_mod_cast hyy
  have hzq : ((zv : ℚ)) ≤ 7 := by exact_mod_cast hzv
  have hfloor : Int.floor ((x : ℚ) + (yy : ℚ) / 32 + (zv : ℚ) / 256) = (x : ℤ) := by
    rw [show ((x : ℚ) + (yy : ℚ) / 32 + (zv : ℚ) / 256)
        = (x : ℚ) + ((yy : ℚ) / 32 + (zv : ℚ) / 256) from by ring,
      Int.floor_nat_add,
      Int.floor_eq_zero_iff.mpr
        ⟨by positivity, by linarith⟩]
    omega
  have hsub : (x : ℚ) + (yy : ℚ) / 32 + (zv : ℚ) / 256 - ((x : ℤ) : ℚ)
      = (yy : ℚ) / 32 + (zv : ℚ) / 256 := by
    push_cast
    ring
  have hxy : cppTrunc (((yy : ℚ) / 32 + (zv : ℚ) / 256) * 32) = (yy : ℤ) := by
    rw [cppTrunc, if_pos (by positivity),
      show ((yy : ℚ) / 32 + (zv : ℚ) / 256) * 32
        = (yy : ℚ) + (zv : ℚ) / 8 from by ring,
      Int.floor_nat_add,
      Int.floor_eq_zero_iff.mpr ⟨by positivity, by linarith⟩]
    omega
  have hz : Int.tmod (cppTrunc (((yy : ℚ) / 32 + (zv : ℚ) / 256) * 256)) 8
      = (zv : ℤ) := by
    rw [cppTrunc, if_pos (by positivity),
      show ((yy : ℚ) / 32 + (zv : ℚ) / 256) * 256
        = ((8 * yy + zv : ℕ) : ℚ) from by push_cast; ring,
      Int.floor_natCast,
      show ((8 * yy + zv : ℕ) : ℤ) = Int.ofNat (8 * yy + zv) from rfl,
      show (8 : ℤ) = Int.ofNat 8 from rfl,
      show Int.tmod (Int.ofNat (8 * yy + zv)) (Int.ofNat 8)
        = Int.ofNat ((8 * yy + zv) % 8) from rfl,
      show (8 * yy + zv) % 8 = zv from by omega]
    rfl
  simp only [price2Frac, hfloor, hsub, hxy, hz, intToString_natCast]
  by_cases h10 : yy < 10
  · rw [if_pos (show ((yy : ℤ)) < 10 from by exact_mod_cast h10)]
    by_cases h4 : zv = 4
    · subst h4
      rw [if_pos (show ((4 : ℕ) : ℤ) = 4 from by norm_num), mkFracStr,
        if_pos rfl, if_pos h10]
    · rw [if_neg (show ¬ ((zv : ℤ)) = 4 from by exact_mod_cast h4), mkFracStr,
        if_neg h4, if_pos h10, natToString_lt10 zv (by omega)]
  · rw [if_neg (show ¬ ((yy : ℤ)) < 10 from by exact_mod_cast h10)]
    by_cases h4 : zv = 4
    · subst h4
      rw [if_pos (show ((4 : ℕ) : ℤ) = 4 from by norm_num), mkFracStr,
        if_pos rfl, if_neg h10]
    · rw [if_neg (show ¬ ((zv : ℤ)) = 4 from by exact_mod_cast h4), mkFracStr,
        if_neg h4, if_neg h10, natToString_lt10 zv (by omega)]

/-- C6: for every valid fractional price string of the form "X-YYZ"
(YY two digits in 00..31, Z a digit 0..7 or '+' standing for 4), decoding
yields X + YY/32 + Z/256 and re-encoding that value reproduces the string,
with Z = 4 always rendered as '+'. -/
theorem claim6_frac_roundtrip (x yy zv : ℕ) (zc : Char) (hyy : yy ≤ 31)
    (hzv : zv ≤ 7) (hzc : (zc = '+' ∧ zv = 4) ∨ zc = digitChar zv) :
    frac2Price (mkFracStr x yy zc) =
      .ok ((x : ℚ) + (yy : ℚ) / 32 + (zv : ℚ) / 256) ∧
    price2Frac ((x : ℚ) + (yy : ℚ) / 32 + (zv : ℚ) / 256)
      = mkFracStr x yy (if zv = 4 then '+' else digitChar zv) :=
  ⟨frac2Price_mkFracStr x yy zv zc hyy hzv hzc,
   price2Frac_mkFracStr x yy zv hyy hzv⟩

/-- C6 witness: the round trip evaluated at "99-16+". -/
theorem claim6_frac_roundtrip_witness :
    frac2Price (mkFracStr 99 16 '+') =
      .ok ((99 : ℚ) + (16 : ℚ) / 32 + (4 : ℚ) / 256) ∧
    price2Frac ((99 : ℚ) + (16 : ℚ) / 32 + (4 : ℚ) / 256)
      = mkFracStr 99 16 '+' := by
  have h := claim6_frac_roundtrip 99 16 4 '+' (by norm_num) (by norm_num)
    (Or.inl ⟨rfl, rfl⟩)
  simpa using h

/-- C7 counterexample: "99-162+" has a four-character fractional part, so
Frac2Price rejects it as malformed instead of returning 99.515625. -/
theorem claim7_cex_decode_malformed :
    frac2Price "99-162+" =
      .error "Invalid format: Fractional part should be exactly 3 characters." ∧
    ¬ frac2Price "99-162+" = .ok ((99 : ℚ) + 16 / 32 + 4 / 256) := by
  refine ⟨rfl, ?_⟩
  intro h
  rw [show frac2Price "99-162+" =
    .error "Invalid format: Fractional part should be exactly 3 characters."
    from rfl] at h
  exact Except.noConfusion h

/-- C7 (amended): the literal cases hold for the well-formed spelling
"99-16+": decode("99-16+") = 99 + 16/32 + 4/256 = 99.515625,
encode(99.515625) = "99-16+" (32nds zero-padded, 4 rendered '+'), and
encode(100.0) = "100-000"; the four-character fractional string "99-162+"
is rejected as malformed. -/
theorem claim7_amended_literal_cases :
    frac2Price "99-16+" = .ok ((99 : ℚ) + 16 / 32 + 4 / 256) ∧
    ((99 : ℚ) + 16 / 32 + 4 / 256) = 99.515625 ∧
    price2Frac ((99 : ℚ) + 16 / 32 + 4 / 256) = "99-16+" ∧
    price2Frac (100 : ℚ) = "100-000" := by
  refine ⟨by with_unfolding_all rfl, by norm_num, by with_unfolding_all rfl,
    by with_unfolding_all rfl⟩

/-! ## PricingConnector::Subscribe (pricingservice.hpp, C4)

The subscription loop parses each line and calls OnMessage; there is no
try/catch anywhere on the path, so a throwing line propagates out of
Subscribe.  The model processes the post-header lines in order and returns
the list of records delivered to OnMessage together with the escaped
exception, if any. -/

/-- The `getline(stream, field, ',')` tokenising loop: emit the
characters before each comma as a field; a trailing comma produces no
further token because the next getline fails at end of stream. -/
def splitCommaAux : List Char → List Char → List String
  | [], acc => [String.mk acc.reverse]
  | c :: cs, acc =>
      if c = ',' then
        match cs with
        | [] => [String.mk acc.reverse]
        | _ => String.mk acc.reverse :: splitCommaAux cs []
      else splitCommaAux cs (c :: acc)

/-- Split a line into comma-separated fields; an empty line yields none. -/
def splitComma (s : String) : List String :=
  match s.toList with
  | [] => []
  | cs => splitCommaAux cs []

/-- One line of prices.txt: split on commas, take the CUSIP from field 1,
parse fields 2 and 3 as fractional prices, derive mid and spread, resolve
the product (UnknownProduct escapes), and build the Price.  A field access
past the end of the split vector is undefined behaviour in C++; the model
reports it as an error (no claim exercises that path). -/
def parsePriceLine (line : String) : Except String Price :=
  let splitdata := splitComma line
  match splitdata.get? 1, splitdata.get? 2, splitdata.get? 3 with
  | some productID, some bidStr, some askStr =>
      (frac2Price bidStr).bind fun bid =>
      (frac2Price askStr).bind fun ask =>
      (queryProduct productID).map fun product =>
        { product, mid := (bid + ask) / 2, bidOfferSpread := ask - bid }
  | _, _, _ => .error "index out of range"

/-- PricingConnector<T>::Subscribe on the post-header lines: deliver each
parsed Price to OnMessage in order; the first line whose parsing throws
aborts the loop, the exception escaping Subscribe. -/
def pricingSubscribe : List String → List Price × Option String
  | [] => ([], none)
  | l :: ls =>
      match parsePriceLine l with
      | .ok p =>
          let r := pricingSubscribe ls
          (p :: r.1, r.2)
      | .error e => ([], some e)

def claim4GoodLine : String := "2024-12-20,91282CAV3,99-000,99-080,0-080"

def claim4BadLine : String := "2024-12-20,91282CAV3,99-0,99-080,0-080"

def claim4GoodLine2 : String := "2024-12-20,91282CBL4,99-000,99-080,0-080"

/-- C4 counterexample: with a well-formed line, then a line whose bid price
"99-0" is malformed, then another well-formed line, Subscribe delivers only
the first record and aborts — the record after the bad line is never
delivered, refuting "drops only that line and continues". -/
theorem claim4_cex_subscribe_aborts :
    (pricingSubscribe [claim4GoodLine, claim4BadLine, claim4GoodLine2]).1.length
        = 1 ∧
    (pricingSubscribe [claim4GoodLine, claim4BadLine, claim4GoodLine2]).2
      = some "Invalid format: Fractional part should be exactly 3 characters." := by
  exact ⟨by with_unfolding_all rfl, by with_unfolding_all rfl⟩

/-- C4 (amended): the connectors have no per-line recovery: in a stream
whose lines before some ill-formed (or unknown-CUSIP) line all parse, the
records before that line are delivered to OnMessage in order, and the bad
line aborts the subscription with the escaped exception — the bad line and
every subsequent line are dropped. -/
theorem claim4_amended_subscribe_aborts (ls1 : List String) (bad : String)
    (ls2 : List String)
    (h1 : ∀ l ∈ ls1, ∃ p, parsePriceLine l = .ok p)
    (h2 : ∃ e, parsePriceLine bad = .error e) :
    ∃ e, pricingSubscribe (ls1 ++ bad :: ls2) =
      (ls1.filterMap (fun l => (parsePriceLine l).toOption), some e) := by
  induction ls1 with
  | nil =>
      obtain ⟨e, he⟩ := h2
      exact ⟨e, by simp [pricingSubscribe, he]⟩
  | cons l ls ih =>
      obtain ⟨p, hp⟩ := h1 l (List.mem_cons_self l ls)
      obtain ⟨e, he⟩ := ih (fun x hx => h1 x (List.mem_cons_of_mem l hx))
      refine ⟨e, ?_⟩
      have hl : pricingSubscribe (l :: (ls ++ bad :: ls2)) =
          (p :: (pricingSubscribe (ls ++ bad :: ls2)).1,
           (pricingSubscribe (ls ++ bad :: ls2)).2) := by
        simp [pricingSubscribe, hp]
      rw [List.cons_append, hl, he]
      simp [List.filterMap_cons, hp, Except.toOption]

/-- The Price parsed from the good line: bid 99, ask 99.25. -/
def claim4GoodPrice : Price :=
  { product := { productId := "91282CAV3", ticker := "US2Y",
                 coupon := 4500/100000, maturity := "2026/11/30" },
    mid := 793/8, bidOfferSpread := 1/4 }

/-- C4 witness: the amended behaviour on the concrete three-line stream. -/
theorem claim4_amended_subscribe_aborts_witness :
    ∃ e, pricingSubscribe [claim4GoodLine, claim4BadLine, claim4GoodLine2] =
      ([claim4GoodLine].filterMap (fun l => (parsePriceLine l).toOption),
       some e) := by
  exact claim4_amended_subscribe_aborts [claim4GoodLine] claim4BadLine
    [claim4GoodLine2]
    (by
      intro l hl
      simp only [List.mem_singleton] at hl
      subst hl
      exact ⟨claim4GoodPrice, by with_unfolding_all rfl⟩)
    ⟨"Invalid format: Fractional part should be exactly 3 characters.",
     by with_unfolding_all rfl⟩

end TradingSystem
